import Mathlib

/-!
Shallow embedding of the revng pipeline engine's global-state diffing and
invalidation layer, and proofs of the specification claims about it.

Embedded from the repository sources:
- `InvalidationEventBase::apply` / `::getInvalidations`
  (src/lib/Pipeline/GlobalsMap.cpp, InvalidationEvent.cpp section);
- `Global` / `TupleTreeGlobal` / `GlobalsMap` (src/include/revng/Pipeline/Global.h);
- `AnyDiff` / `AnyDiffImpl` and the per-type invalidation-event tagging
  (src/include/revng/Pipeline/Analysis.h AnyDiff section,
   InvalidationEvent.h / TupleTreeInvalidationEvent.h sections of Global.h);
- `GlobalsMap::storeToDisk` / `::loadFromDisk` (src/unnamed/part_007) and
  `Global::storeToDisk` / `::loadFromDisk` (src/unnamed/part_008).

Parts of the repository that the claims depend on but whose definitions are
not under src/ (Kind, Runner, the TupleTree serialization machinery) are
modelled from the specification; each such definition carries a doc comment
starting with `Modelled from the spec:`.

C++ `llvm::StringMap` values are modelled as association lists looked up by
key; `llvm::Error` returning functions become `Except String`; in-place
mutation becomes explicit state passing.
-/

set_option autoImplicit false

namespace Pipeline

/-! ## Association-list helpers (model of `llvm::StringMap`) -/

/-- First-match lookup in an association list (model of `StringMap::find`). -/
def lookupA {κ β : Type} [DecidableEq κ] : List (κ × β) → κ → Option β
  | [], _ => none
  | (k, v) :: rest, key => if k = key then some v else lookupA rest key

/-- Model of `Map[key]` followed by in-place mutation of the found slot:
replace the first entry with key `key` by `f` of its value; when the key is
absent, append a fresh entry holding `f dflt` (default-construction plus
mutation through the returned reference). -/
def updateA {κ β : Type} [DecidableEq κ] (m : List (κ × β)) (key : κ) (dflt : β)
    (f : β → β) : List (κ × β) :=
  match m with
  | [] => [(key, f dflt)]
  | (k, v) :: rest =>
    if k = key then (k, f v) :: rest else (k, v) :: updateA rest key dflt f

theorem lookupA_nil {κ β : Type} [DecidableEq κ] (k : κ) :
    lookupA ([] : List (κ × β)) k = none := rfl

theorem lookupA_updateA_self {κ β : Type} [DecidableEq κ] (m : List (κ × β)) (key : κ)
    (dflt : β) (f : β → β) :
    lookupA (updateA m key dflt f) key = some (f ((lookupA m key).getD dflt)) := by
  induction m with
  | nil => simp [lookupA, updateA]
  | cons hd tl ih =>
    obtain ⟨k, v⟩ := hd
    by_cases h : k = key
    · subst h; simp [lookupA, updateA]
    · simp [lookupA, updateA, h, ih]

theorem lookupA_updateA_ne {κ β : Type} [DecidableEq κ] (m : List (κ × β)) (key k' : κ)
    (dflt : β) (f : β → β) (h : k' ≠ key) :
    lookupA (updateA m key dflt f) k' = lookupA m k' := by
  induction m with
  | nil => simp [lookupA, updateA, Ne.symm h]
  | cons hd tl ih =>
    obtain ⟨k, v⟩ := hd
    by_cases hk : k = key
    · subst hk
      simp only [updateA, if_pos rfl, lookupA]
      by_cases hk' : k = k'
      · exact absurd hk'.symm h
      · simp [hk']
    · simp only [updateA, if_neg hk, lookupA]
      by_cases hk' : k = k'
      · simp [hk']
      · simp [hk', ih]

/-! ## Targets, Kinds, Containers, Steps, Runner -/

/-- A `pipeline::Target`: path components plus a Kind reference (the Kind is
identified by its registered name).  Two Targets are equal iff components and
Kind match. -/
structure Target where
  components : List String
  kindName : String
deriving DecidableEq, Repr

abbrev TargetsList := List Target

/-- Modelled from the spec: the diff carried by a `TupleTreeInvalidationEvent`
is abstracted as the list of paths of the Global it altered ("the diff's
affected paths"). -/
abbrev DiffPaths := List (List String)

/-- Modelled from the spec: `pipeline::Kind` is not under src/.  A Kind is
anchored at a Rank of depth `depth` and addresses artifacts below a fixed
path of the Global (`rankPath`); a Target of this Kind with components `cs`
depends on the Global data under `rankPath ++ cs`. -/
structure Kind where
  name : String
  rankPath : List String
  depth : Nat
deriving DecidableEq, Repr

/-- The dependency path of a Target of Kind `k`. -/
def Kind.depPath (k : Kind) (t : Target) : List String :=
  k.rankPath ++ t.components

/-- Does the diff alter data under `path` (some affected path extends it)? -/
def altersUnder (d : DiffPaths) (path : List String) : Bool :=
  d.any fun p => path.isPrefixOf p

/-- Modelled from the spec: the Targets of Kind `k` whose dependency path is
altered by the diff — "a Kind-supplied predicate examining the diff's
affected paths against the Target's addressed path".  Each affected path
that reaches below `k.rankPath` at Rank depth yields the Target it falls
under. -/
def Kind.produced (k : Kind) (d : DiffPaths) : TargetsList :=
  d.filterMap fun p =>
    if k.rankPath.isPrefixOf p ∧ k.rankPath.length + k.depth ≤ p.length then
      some ⟨(p.drop k.rankPath.length).take k.depth, k.name⟩
    else
      none

/-- Modelled from the spec: `Kind::getInvalidations(TargetsList &, Event)` as
called by `InvalidationEventBase::getInvalidations` — appends the Targets the
Kind reports as invalidated by the event's diff to the accumulator passed by
reference. -/
def Kind.getInvalidations (k : Kind) (acc : TargetsList) (d : DiffPaths) : TargetsList :=
  acc ++ k.produced d

/-- A Container as seen by the invalidation walk: the Kinds it declared
compatibility with, and its committed content (the set of materialized
Targets). -/
structure Container where
  declaredKinds : List String
  content : TargetsList
deriving DecidableEq, Repr

/-- A Step: name plus its `containers()` set; a `none` entry models a null
`unique_ptr` slot (container not yet created), matching the
`if (not Cotainer.second) continue` check. -/
structure Step where
  name : String
  containers : List (String × Option Container)
deriving DecidableEq, Repr

/-- `pipeline::InvalidationMap`: Step name → Container name → TargetsList. -/
abbrev InvalidationMap := List (String × List (String × TargetsList))

/-- The Runner as the invalidation layer sees it: the ordered Steps, the
kinds registry, and `Runner::getInvalidations` — the latter is not under
src/, so it is modelled from the spec as an abstract fallible pass over the
invalidation map (the call sequence in `InvalidationEventBase::apply` is all
the source shows of it). -/
structure Runner where
  steps : List Step
  kindsRegistry : List Kind
  getInvalidationsHook : InvalidationMap → Except String InvalidationMap

/-- The loop `for (const Kind &Rule : Runner.getKindsRegistry())
Rule.getInvalidations(ContainerInvalidations, *this)`: every registered Kind
run, in order, over the accumulated TargetsList. -/
def collectInvalidations (registry : List Kind) (d : DiffPaths) (acc : TargetsList) :
    TargetsList :=
  registry.foldl (fun a k => k.getInvalidations a d) acc

/-- The inner loop of `InvalidationEventBase::getInvalidations`: for one Step,
fold over its containers; a container entry holding a value gets, at its name,
every Kind of the registry run over the accumulated TargetsList. -/
def stepInvalidations (registry : List Kind) (d : DiffPaths)
    (cs : List (String × Option Container)) (inner : List (String × TargetsList)) :
    List (String × TargetsList) :=
  cs.foldl
    (fun im c =>
      match c.2 with
      | none => im
      | some _ => updateA im c.1 [] (fun acc => collectInvalidations registry d acc))
    inner

/-- `InvalidationEventBase::getInvalidations(Runner, Map)`: visit every Step
(creating its entry in the map), and for every container entry holding a
value, query every Kind of the Runner's kinds registry. -/
def InvalidationEventBase.getInvalidations (d : DiffPaths) (r : Runner)
    (m : InvalidationMap) : InvalidationMap :=
  r.steps.foldl
    (fun m s => updateA m s.name [] (fun inner => stepInvalidations r.kindsRegistry d s.containers inner))
    m

/-- The TargetsList an invalidation map holds for a given Step and Container
name (empty when absent). -/
def lookupInvalidations (m : InvalidationMap) (sn cn : String) : TargetsList :=
  (lookupA ((lookupA m sn).getD []) cn).getD []

/-- The state reached by removing every Target the map lists from the
Container it is listed under. -/
def Runner.invalidated (r : Runner) (m : InvalidationMap) : Runner :=
  { r with
    steps := r.steps.map fun s =>
      { s with
        containers := s.containers.map fun c =>
          (c.1,
           c.2.map fun cont =>
             { cont with
               content := cont.content.filter fun t =>
                 ¬ t ∈ lookupInvalidations m s.name c.1 }) } }

/-- Modelled from the spec: `Runner::invalidate` is not under src/ — "remove
each listed Target from its Container's committed state". -/
def Runner.invalidate (r : Runner) (m : InvalidationMap) : Except String Runner :=
  .ok (r.invalidated m)

/-- `InvalidationEventBase::apply(Runner)`: build the invalidation map from a
fresh (empty) map, run `Runner::getInvalidations` over it, and only when that
returned no error call `Runner::invalidate`; an error is returned as-is. -/
def InvalidationEventBase.apply (d : DiffPaths) (r : Runner) : Except String Runner :=
  let m := InvalidationEventBase.getInvalidations d r []
  match r.getInvalidationsHook m with
  | .error e => .error e
  | .ok m2 => r.invalidate m2

/-- Observing a Runner's committed state: the content of the Container named
`cn` of the Step named `sn`. -/
def Runner.containerContent (r : Runner) (sn cn : String) : Option TargetsList :=
  (r.steps.find? fun s => s.name == sn).bind fun s =>
    (lookupA s.containers cn).bind fun oc => oc.map Container.content

/-- Replacing every Container's declared-compatibility set (the content and
all names untouched). -/
def Runner.mapDeclared (f : List String → List String) (r : Runner) : Runner :=
  { r with
    steps := r.steps.map fun s =>
      { s with
        containers := s.containers.map fun c =>
          (c.1, c.2.map fun cont => { cont with declaredKinds := f cont.declaredKinds }) } }

/-! ## Lemmas about the invalidation walk -/

theorem lookupA_foldl_invariant {κ β α : Type} [DecidableEq κ] (l : List α)
    (step : List (κ × β) → α → List (κ × β)) (key : κ)
    (hstep : ∀ m a, a ∈ l → lookupA (step m a) key = lookupA m key) :
    ∀ m : List (κ × β), lookupA (l.foldl step m) key = lookupA m key := by
  induction l with
  | nil => intro m; rfl
  | cons hd tl ih =>
    intro m
    rw [List.foldl_cons,
        ih (fun m a ha => hstep m a (List.mem_cons_of_mem hd ha)),
        hstep m hd (List.mem_cons_self hd tl)]

theorem lookupA_stepInvalidations_ne (registry : List Kind) (d : DiffPaths)
    (cs : List (String × Option Container)) (inner : List (String × TargetsList))
    (key : String) (hkey : key ∉ cs.map Prod.fst) :
    lookupA (stepInvalidations registry d cs inner) key = lookupA inner key := by
  unfold stepInvalidations
  refine lookupA_foldl_invariant cs _ key (fun m c hc => ?_) inner
  match hc2 : c.2 with
  | none => simp
  | some cont =>
    simp only
    exact lookupA_updateA_ne _ _ _ _ _ fun h => hkey (h ▸ List.mem_map_of_mem Prod.fst hc)

theorem lookupA_stepInvalidations (registry : List Kind) (d : DiffPaths)
    (cs : List (String × Option Container)) (cname : String) (cont : Container)
    (hc : (cname, some cont) ∈ cs) (hnodup : (cs.map Prod.fst).Nodup) :
    ∀ inner, lookupA (stepInvalidations registry d cs inner) cname
      = some (collectInvalidations registry d ((lookupA inner cname).getD [])) := by
  induction cs with
  | nil => cases hc
  | cons hd tl ih =>
    intro inner
    simp only [List.map_cons, List.nodup_cons] at hnodup
    rcases List.mem_cons.mp hc with heq | htl
    · subst heq
      show lookupA (stepInvalidations registry d tl
          (updateA inner cname [] (fun acc => collectInvalidations registry d acc))) cname = _
      rw [lookupA_stepInvalidations_ne registry d tl _ cname hnodup.1]
      exact lookupA_updateA_self inner cname [] _
    · obtain ⟨k, oc⟩ := hd
      have hmem : cname ∈ tl.map Prod.fst := List.mem_map_of_mem Prod.fst htl
      have hne : cname ≠ k := by
        intro h
        exact hnodup.1 (h ▸ hmem)
      cases oc with
      | none =>
        show lookupA (stepInvalidations registry d tl inner) cname = _
        exact ih htl hnodup.2 inner
      | some c =>
        show lookupA (stepInvalidations registry d tl
            (updateA inner k [] (fun acc => collectInvalidations registry d acc))) cname = _
        rw [ih htl hnodup.2, lookupA_updateA_ne _ _ _ _ _ hne]

theorem lookupA_eventGetInvalidations (d : DiffPaths) (registry : List Kind)
    (l : List Step) (s : Step) (hs : s ∈ l) (hnodup : (l.map Step.name).Nodup) :
    ∀ m : InvalidationMap,
      lookupA
        (l.foldl (fun m s' => updateA m s'.name []
          (fun inner => stepInvalidations registry d s'.containers inner)) m)
        s.name
      = some (stepInvalidations registry d s.containers ((lookupA m s.name).getD [])) := by
  induction l with
  | nil => cases hs
  | cons hd tl ih =>
    intro m
    simp only [List.map_cons, List.nodup_cons] at hnodup
    rcases List.mem_cons.mp hs with heq | htl
    · subst heq
      rw [List.foldl_cons,
          lookupA_foldl_invariant tl _ s.name
            (fun m' a ha => lookupA_updateA_ne m' a.name s.name [] _
              (fun h => hnodup.1 (h ▸ List.mem_map_of_mem Step.name ha))),
          lookupA_updateA_self]
    · have hne : s.name ≠ hd.name := by
        intro h
        exact hnodup.1 (h ▸ List.mem_map_of_mem Step.name htl)
      rw [List.foldl_cons, ih htl hnodup.2, lookupA_updateA_ne _ _ _ _ _ hne]

theorem collectInvalidations_eq (registry : List Kind) (d : DiffPaths) :
    ∀ acc, collectInvalidations registry d acc
      = acc ++ (registry.map (fun k => k.produced d)).flatten := by
  induction registry with
  | nil => intro acc; simp [collectInvalidations]
  | cons k ks ih =>
    intro acc
    simp only [collectInvalidations, List.foldl_cons] at ih ⊢
    rw [ih (Kind.getInvalidations k acc d)]
    simp [Kind.getInvalidations, List.append_assoc]

theorem mem_collectInvalidations (registry : List Kind) (d : DiffPaths) (t : Target) :
    t ∈ collectInvalidations registry d [] ↔ ∃ k ∈ registry, t ∈ k.produced d := by
  rw [collectInvalidations_eq]
  simp [List.mem_flatten]

theorem kindName_of_mem_produced (k : Kind) (d : DiffPaths) (t : Target)
    (h : t ∈ k.produced d) : t.kindName = k.name := by
  simp only [Kind.produced, List.mem_filterMap] at h
  obtain ⟨p, -, hp⟩ := h
  by_cases hcond : k.rankPath.isPrefixOf p ∧ k.rankPath.length + k.depth ≤ p.length
  · rw [if_pos hcond] at hp
    cases hp
    rfl
  · rw [if_neg hcond] at hp
    cases hp

theorem mem_produced_iff (k : Kind) (d : DiffPaths) (t : Target)
    (hdepth : t.components.length = k.depth) (hname : t.kindName = k.name) :
    t ∈ k.produced d ↔ altersUnder d (k.depPath t) = true := by
  obtain ⟨comps, kn⟩ := t
  simp only at hdepth hname
  subst hname
  unfold Kind.produced altersUnder Kind.depPath
  rw [List.mem_filterMap, List.any_eq_true]
  constructor
  · rintro ⟨p, hpd, hp⟩
    split at hp
    case isTrue hcond =>
      obtain ⟨hpre, hlen⟩ := hcond
      rw [List.isPrefixOf_iff_prefix] at hpre
      obtain ⟨r', rfl⟩ := hpre
      injection hp with hp
      have hcomps : comps = r'.take k.depth := by
        have := congrArg Target.components hp
        simpa [List.drop_left] using this.symm
      refine ⟨k.rankPath ++ r', hpd, ?_⟩
      rw [List.isPrefixOf_iff_prefix, hcomps]
      exact ⟨r'.drop k.depth, by rw [List.append_assoc, List.take_append_drop]⟩
    case isFalse => cases hp
  · rintro ⟨p, hpd, hpre⟩
    rw [List.isPrefixOf_iff_prefix] at hpre
    obtain ⟨r', rfl⟩ := hpre
    refine ⟨k.rankPath ++ comps ++ r', hpd, ?_⟩
    have hpre2 : k.rankPath.isPrefixOf (k.rankPath ++ comps ++ r') = true := by
      rw [List.isPrefixOf_iff_prefix, List.append_assoc]
      exact List.prefix_append _ _
    have hlen : k.rankPath.length + k.depth ≤ (k.rankPath ++ comps ++ r').length := by
      simp only [List.length_append]
      omega
    rw [if_pos ⟨hpre2, hlen⟩]
    have hdrop : (k.rankPath ++ comps ++ r').drop k.rankPath.length = comps ++ r' := by
      rw [List.append_assoc]
      exact List.drop_left _ _
    have htake : (comps ++ r').take k.depth = comps := by
      rw [← hdepth]
      exact List.take_left _ _
    rw [hdrop, htake]

theorem lookupA_of_mem {κ β : Type} [DecidableEq κ] (l : List (κ × β)) (k : κ) (v : β)
    (hmem : (k, v) ∈ l) (hnodup : (l.map Prod.fst).Nodup) : lookupA l k = some v := by
  induction l with
  | nil => cases hmem
  | cons hd tl ih =>
    simp only [List.map_cons, List.nodup_cons] at hnodup
    rcases List.mem_cons.mp hmem with heq | htl
    · cases heq.symm
      simp [lookupA]
    · obtain ⟨hk, hv⟩ := hd
      have hmemk : k ∈ tl.map Prod.fst := List.mem_map_of_mem Prod.fst htl
      have hne : hk ≠ k := fun h => hnodup.1 (h ▸ hmemk)
      simp only [lookupA, if_neg hne]
      exact ih htl hnodup.2

theorem find?_step_name (l : List Step) (s : Step) (hs : s ∈ l)
    (hnodup : (l.map Step.name).Nodup) :
    (l.find? fun x => x.name == s.name) = some s := by
  induction l with
  | nil => cases hs
  | cons hd tl ih =>
    simp only [List.map_cons, List.nodup_cons] at hnodup
    rcases List.mem_cons.mp hs with heq | htl
    · subst heq
      rw [List.find?_cons_of_pos _ (by simp)]
    · have hne : hd.name ≠ s.name :=
        fun h => hnodup.1 (h ▸ List.mem_map_of_mem Step.name htl)
      rw [List.find?_cons_of_neg _ (by simp [hne])]
      exact ih htl hnodup.2

theorem find?_map_step (F : Step → Step) (hF : ∀ s, (F s).name = s.name)
    (l : List Step) (sn : String) :
    ((l.map F).find? fun x => x.name == sn) = (l.find? fun x => x.name == sn).map F := by
  induction l with
  | nil => rfl
  | cons hd tl ih =>
    rw [List.map_cons]
    by_cases h : hd.name = sn
    · rw [List.find?_cons_of_pos _ (by simp [hF, h]), List.find?_cons_of_pos _ (by simp [h])]
      rfl
    · rw [List.find?_cons_of_neg _ (by simp [hF, h]), List.find?_cons_of_neg _ (by simp [h]),
        ih]

theorem lookupA_invalidated_containers (m : InvalidationMap) (sn : String)
    (cs : List (String × Option Container)) (cname : String) :
    lookupA
      (cs.map fun c =>
        (c.1,
         c.2.map fun cont =>
           { cont with
             content := cont.content.filter fun t =>
               ¬ t ∈ lookupInvalidations m sn c.1 }))
      cname
      = (lookupA cs cname).map fun oc =>
          oc.map fun cont =>
            { cont with
              content := cont.content.filter fun t =>
                ¬ t ∈ lookupInvalidations m sn cname } := by
  induction cs with
  | nil => rfl
  | cons hd tl ih =>
    obtain ⟨k, v⟩ := hd
    by_cases h : k = cname
    · subst h
      simp [lookupA]
    · simp only [List.map_cons, lookupA, if_neg h]
      exact ih

theorem containerContent_invalidated (r : Runner) (m : InvalidationMap) (s : Step)
    (cname : String) (cont : Container)
    (hs : s ∈ r.steps) (hnodupS : (r.steps.map Step.name).Nodup)
    (hcA : lookupA s.containers cname = some (some cont)) :
    (r.invalidated m).containerContent s.name cname
      = some (cont.content.filter fun t => ¬ t ∈ lookupInvalidations m s.name cname) := by
  unfold Runner.invalidated Runner.containerContent
  rw [find?_map_step
      (fun s => { s with containers := s.containers.map fun c =>
        (c.1, c.2.map fun cont =>
          { cont with
            content := cont.content.filter fun t =>
              ¬ t ∈ lookupInvalidations m s.name c.1 }) })
      (fun _ => rfl) r.steps s.name,
    find?_step_name r.steps s hs hnodupS]
  simp only [Option.map_some', Option.some_bind']
  rw [lookupA_invalidated_containers m s.name s.containers cname, hcA]
  rfl

theorem stepInvalidations_map (registry : List Kind) (d : DiffPaths)
    (g : Container → Container) :
    ∀ (cs : List (String × Option Container)) (inner : List (String × TargetsList)),
      stepInvalidations registry d (cs.map fun c => (c.1, c.2.map g)) inner
        = stepInvalidations registry d cs inner
  | [], _ => rfl
  | (_, none) :: tl, inner => stepInvalidations_map registry d g tl inner
  | (k, some _) :: tl, inner =>
    stepInvalidations_map registry d g tl
      (updateA inner k [] (fun acc => collectInvalidations registry d acc))

theorem stepsFold_mapDeclared (registry : List Kind) (d : DiffPaths)
    (f : List String → List String) :
    ∀ (l : List Step) (m : InvalidationMap),
      List.foldl
        (fun (m : InvalidationMap) (s' : Step) => updateA m s'.name []
          (fun inner => stepInvalidations registry d s'.containers inner))
        m
        (l.map fun s =>
          { s with
            containers := s.containers.map fun c =>
              (c.1, c.2.map fun cont => { cont with declaredKinds := f cont.declaredKinds }) })
      = List.foldl
          (fun (m : InvalidationMap) (s' : Step) => updateA m s'.name []
            (fun inner => stepInvalidations registry d s'.containers inner))
          m l := by
  intro l
  induction l with
  | nil => intro m; rfl
  | cons hd tl ih =>
    intro m
    rw [List.map_cons, List.foldl_cons, List.foldl_cons]
    have harg :
        (fun inner => stepInvalidations registry d
          (hd.containers.map fun c =>
            (c.1, c.2.map fun cont => { cont with declaredKinds := f cont.declaredKinds }))
          inner)
        = fun inner => stepInvalidations registry d hd.containers inner :=
      funext fun inner =>
        stepInvalidations_map registry d
          (fun cont => { cont with declaredKinds := f cont.declaredKinds }) hd.containers inner
    rw [harg]
    exact ih _

theorem getInvalidations_mapDeclared (d : DiffPaths) (r : Runner)
    (f : List String → List String) :
    ∀ m, InvalidationEventBase.getInvalidations d (r.mapDeclared f) m
      = InvalidationEventBase.getInvalidations d r m := by
  intro m
  unfold InvalidationEventBase.getInvalidations Runner.mapDeclared
  exact stepsFold_mapDeclared r.kindsRegistry d f r.steps m

/-! ## Concrete inputs used by the witnesses -/

/-- A per-function Kind anchored under the `Functions` subtree (Rank depth 1). -/
def kFunction : Kind := ⟨"function", ["Functions"], 1⟩

/-- The Target of the function at address 0x1000. -/
def tFoo : Target := ⟨["0x1000"], "function"⟩

/-- A container holding that Target. -/
def contDecompiled : Container := ⟨["function"], [tFoo]⟩

/-- A Step with one materialized container and one not-yet-created slot. -/
def stepDecompile : Step :=
  ⟨"decompile", [("decompiled", some contDecompiled), ("lifted", none)]⟩

/-- A Runner whose `Runner::getInvalidations` succeeds without narrowing. -/
def runner0 : Runner := ⟨[stepDecompile], [kFunction], Except.ok⟩

/-- The same Runner with a failing `Runner::getInvalidations`. -/
def runnerErr : Runner := ⟨[stepDecompile], [kFunction], fun _ => .error "boom"⟩

/-- The diff produced by renaming the function at 0x1000. -/
def diffRename : DiffPaths := [["Functions", "0x1000", "Name"]]

/-- `runner0` after the rename diff has been applied: the Target of 0x1000 is
gone from the `decompiled` container. -/
def runner0After : Runner :=
  ⟨[⟨"decompile", [("decompiled", some ⟨["function"], []⟩), ("lifted", none)]⟩],
   [kFunction], Except.ok⟩

/-! ## Claim theorems C1–C3 -/

/-- C1: for every Runner and every invalidation event,
`InvalidationEventBase::getInvalidations` builds the invalidation map by
visiting every Step of the Runner (each Step gets an entry), and for every
container entry of that Step that currently holds a value it queries every
Kind in the Runner's kinds registry (the entry's TargetsList is the fold of
`Kind::getInvalidations` over the whole registry); the set of Kinds consulted
is not restricted to the Kinds the Container declared compatibility with (the
map is invariant under arbitrary rewriting of every declared-compatibility
set). -/
theorem getInvalidations_visits_every_step_and_kind (r : Runner) (d : DiffPaths)
    (hnodupS : (r.steps.map Step.name).Nodup) :
    (∀ s ∈ r.steps,
      (lookupA (InvalidationEventBase.getInvalidations d r []) s.name).isSome = true) ∧
    (∀ s ∈ r.steps, ∀ cname : String, ∀ cont : Container,
      (cname, some cont) ∈ s.containers → (s.containers.map Prod.fst).Nodup →
      lookupA ((lookupA (InvalidationEventBase.getInvalidations d r []) s.name).getD [])
          cname
        = some (collectInvalidations r.kindsRegistry d [])) ∧
    (∀ (f : List String → List String) (m : InvalidationMap),
      InvalidationEventBase.getInvalidations d (r.mapDeclared f) m
        = InvalidationEventBase.getInvalidations d r m) := by
  refine ⟨fun s hs => ?_, fun s hs cname cont hc hnodupC => ?_, fun f m => ?_⟩
  · unfold InvalidationEventBase.getInvalidations
    rw [lookupA_eventGetInvalidations d r.kindsRegistry r.steps s hs hnodupS []]
    rfl
  · unfold InvalidationEventBase.getInvalidations
    rw [lookupA_eventGetInvalidations d r.kindsRegistry r.steps s hs hnodupS []]
    simp only [Option.getD_some, lookupA_nil, Option.getD_none]
    rw [lookupA_stepInvalidations r.kindsRegistry d s.containers cname cont hc hnodupC []]
    simp only [lookupA_nil, Option.getD_none]
  · exact getInvalidations_mapDeclared d r f m

/-- Witness for C1 at a concrete Runner and diff. -/
theorem getInvalidations_visits_every_step_and_kind_witness :
    (∀ s ∈ runner0.steps,
      (lookupA (InvalidationEventBase.getInvalidations diffRename runner0 [])
        s.name).isSome = true) ∧
    (∀ s ∈ runner0.steps, ∀ cname : String, ∀ cont : Container,
      (cname, some cont) ∈ s.containers → (s.containers.map Prod.fst).Nodup →
      lookupA
          ((lookupA (InvalidationEventBase.getInvalidations diffRename runner0 [])
            s.name).getD [])
          cname
        = some (collectInvalidations runner0.kindsRegistry diffRename [])) ∧
    (∀ (f : List String → List String) (m : InvalidationMap),
      InvalidationEventBase.getInvalidations diffRename (runner0.mapDeclared f) m
        = InvalidationEventBase.getInvalidations diffRename runner0 m) :=
  getInvalidations_visits_every_step_and_kind runner0 diffRename (by decide)

/-- C2: invalidation is conservative.  For every diff `d` and every Target `t`
materialized in a Container of a reachable Runner state (Kind registered,
names unique, Target depth matching its Kind's Rank), after
`InvalidationEventBase::apply` the Target is absent from its Container when
the diff alters data under the Target's Kind's dependency path, and still
present when it does not; in particular a stale Target is never left present. -/
theorem invalidation_conservative (r : Runner) (d : DiffPaths) (s : Step)
    (cname : String) (cont : Container) (t : Target) (k : Kind) (r' : Runner)
    (hhook : r.getInvalidationsHook = Except.ok)
    (hnodupS : (r.steps.map Step.name).Nodup)
    (hs : s ∈ r.steps)
    (hnodupC : (s.containers.map Prod.fst).Nodup)
    (hc : (cname, some cont) ∈ s.containers)
    (ht : t ∈ cont.content)
    (hk : k ∈ r.kindsRegistry)
    (hkuniq : ∀ k' ∈ r.kindsRegistry, k'.name = t.kindName → k' = k)
    (hkname : t.kindName = k.name)
    (hdepth : t.components.length = k.depth)
    (happly : InvalidationEventBase.apply d r = .ok r') :
    ∃ newContent, r'.containerContent s.name cname = some newContent ∧
      (altersUnder d (k.depPath t) = true → t ∉ newContent) ∧
      (altersUnder d (k.depPath t) = false → t ∈ newContent) := by
  have happly' : r' = r.invalidated (InvalidationEventBase.getInvalidations d r []) := by
    have h2 : InvalidationEventBase.apply d r
        = .ok (r.invalidated (InvalidationEventBase.getInvalidations d r [])) := by
      unfold InvalidationEventBase.apply
      rw [hhook]
      rfl
    rw [h2] at happly
    exact (Except.ok.inj happly).symm
  subst happly'
  have hcA : lookupA s.containers cname = some (some cont) :=
    lookupA_of_mem s.containers cname (some cont) hc hnodupC
  rw [containerContent_invalidated r _ s cname cont hs hnodupS hcA]
  have hli : lookupInvalidations (InvalidationEventBase.getInvalidations d r [])
      s.name cname = collectInvalidations r.kindsRegistry d [] := by
    unfold lookupInvalidations InvalidationEventBase.getInvalidations
    rw [lookupA_eventGetInvalidations d r.kindsRegistry r.steps s hs hnodupS []]
    simp only [Option.getD_some, lookupA_nil, Option.getD_none]
    rw [lookupA_stepInvalidations r.kindsRegistry d s.containers cname cont hc hnodupC []]
    simp only [lookupA_nil, Option.getD_none, Option.getD_some]
  have hcollect : t ∈ collectInvalidations r.kindsRegistry d []
      ↔ altersUnder d (k.depPath t) = true := by
    rw [mem_collectInvalidations]
    constructor
    · rintro ⟨k', hk', hp⟩
      have hn := kindName_of_mem_produced k' d t hp
      have hkk : k' = k := hkuniq k' hk' hn.symm
      subst hkk
      exact (mem_produced_iff k' d t hdepth hkname).mp hp
    · intro ha
      exact ⟨k, hk, (mem_produced_iff k d t hdepth hkname).mpr ha⟩
  refine ⟨_, rfl, fun halt hmem => ?_, fun halt => ?_⟩
  · rw [List.mem_filter] at hmem
    have h3 := hmem.2
    simp only [hli, decide_eq_true_eq] at h3
    exact h3 (hcollect.mpr halt)
  · rw [List.mem_filter]
    refine ⟨ht, ?_⟩
    simp only [hli, decide_eq_true_eq]
    intro hmem
    rw [hcollect.mp hmem] at halt
    cases halt

/-- Witness for C2: the rename diff at 0x1000 removes the Target of 0x1000
from the `decompiled` container. -/
theorem invalidation_conservative_witness :
    ∃ newContent,
      runner0After.containerContent "decompile" "decompiled" = some newContent ∧
      (altersUnder diffRename (kFunction.depPath tFoo) = true → tFoo ∉ newContent) ∧
      (altersUnder diffRename (kFunction.depPath tFoo) = false → tFoo ∈ newContent) :=
  invalidation_conservative runner0 diffRename stepDecompile "decompiled" contDecompiled
    tFoo kFunction runner0After rfl (by decide) (by decide) (by decide) (by decide)
    (by decide) (by decide) (by decide) rfl rfl rfl

/-- C3: `InvalidationEventBase::apply` first computes the invalidation map via
`getInvalidations`, then hands it to `Runner::getInvalidations`; it calls
`Runner::invalidate` only when that returned no error, and when it returned an
error `apply` returns that very error — no Target has been removed from any
Container, since the Runner value is left untouched on the error path. -/
theorem apply_error_propagation (r : Runner) (d : DiffPaths) :
    (∀ e, r.getInvalidationsHook (InvalidationEventBase.getInvalidations d r []) = .error e →
      InvalidationEventBase.apply d r = .error e) ∧
    (∀ m2, r.getInvalidationsHook (InvalidationEventBase.getInvalidations d r []) = .ok m2 →
      InvalidationEventBase.apply d r = r.invalidate m2) := by
  constructor
  · intro e he
    simp [InvalidationEventBase.apply, he]
  · intro m2 hm
    simp [InvalidationEventBase.apply, hm]

/-- Witness for C3: at a Runner with a failing hook, `apply` returns the error;
at a Runner with a succeeding hook, `apply` is `Runner::invalidate`. -/
theorem apply_error_propagation_witness :
    InvalidationEventBase.apply diffRename runnerErr = .error "boom" ∧
    InvalidationEventBase.apply diffRename runner0
      = runner0.invalidate (InvalidationEventBase.getInvalidations diffRename runner0 []) :=
  ⟨(apply_error_propagation runnerErr diffRename).1 "boom" rfl,
   (apply_error_propagation runner0 diffRename).2
     (InvalidationEventBase.getInvalidations diffRename runner0 []) rfl⟩

/-! ## Globals, TupleTree serialization, diffing

The `Global` hierarchy is embedded as a closed tagged variant over its two
concrete `TupleTreeGlobal` instantiations; the per-instantiation
`static char ID` addresses become a closed identifier type compared for
(pointer) equality. -/

/-- Modelled from the spec: the TupleTree text serialization machinery is not
under src/; serialized buffers are abstracted at the YAML document level. -/
inductive Node where
  | nat (n : Nat)
  | str (s : String)
  | seq (xs : List Node)
  | node (fields : List (String × Node))

/-- A function of the binary model (the enumerable domain of Scenario B). -/
structure ModelFunction where
  address : Nat
  name : String
deriving DecidableEq, Repr

/-- The binary model: the one concrete TupleTree-compatible Global in
practice. -/
structure Model where
  functions : List ModelFunction
deriving DecidableEq, Repr

/-- A second TupleTree-compatible Global type, exercising the per-type ID
machinery. -/
structure OtherModel where
  entries : List String
deriving DecidableEq, Repr

/-- Modelled from the spec: YAML rendering of one model function. -/
def serializeFunction (f : ModelFunction) : Node :=
  .node [("Address", .nat f.address), ("Name", .str f.name)]

/-- Modelled from the spec: parsing one model function back. -/
def deserializeFunction : Node → Option ModelFunction
  | .node [("Address", .nat a), ("Name", .str n)] => some ⟨a, n⟩
  | _ => none

def deserializeFunctions : List Node → Option (List ModelFunction)
  | [] => some []
  | n :: rest =>
    match deserializeFunction n, deserializeFunctions rest with
    | some f, some fs => some (f :: fs)
    | _, _ => none

/-- Modelled from the spec: `TupleTree<Model>::serialize`. -/
def serializeModel (m : Model) : Node :=
  .node [("Functions", .seq (m.functions.map serializeFunction))]

/-- Modelled from the spec: `TupleTree<Model>::deserialize`. -/
def deserializeModel : Node → Option Model
  | .node [("Functions", .seq xs)] => (deserializeFunctions xs).map Model.mk
  | _ => none

def serializeOther (o : OtherModel) : Node := .seq (o.entries.map Node.str)

def deserializeOtherEntries : List Node → Option (List String)
  | [] => some []
  | .str s :: rest => (deserializeOtherEntries rest).map (s :: ·)
  | _ => none

def deserializeOther : Node → Option OtherModel
  | .seq xs => (deserializeOtherEntries xs).map OtherModel.mk
  | _ => none

/-- One entry of a `TupleTreeDiff`: a path and the old/new values (absent for
additions/removals). -/
structure Change where
  path : List String
  oldVal : Option Node
  newVal : Option Node

/-- Modelled from the spec: `::diff(*Value, *Casted.Value)` for the model —
the structural delta between two function sets keyed by address. -/
def diffFunctions (as bs : List ModelFunction) : List Change :=
  (as.filterMap fun f =>
    match bs.find? (fun g => g.address == f.address) with
    | none => some ⟨["Functions", toString f.address], some (serializeFunction f), none⟩
    | some g =>
      if f.name = g.name then none
      else some ⟨["Functions", toString f.address, "Name"],
                 some (.str f.name), some (.str g.name)⟩)
  ++ (bs.filterMap fun g =>
    match as.find? (fun f => f.address == g.address) with
    | none => some ⟨["Functions", toString g.address], none, some (serializeFunction g)⟩
    | some _ => none)

def diffModel (a b : Model) : List Change := diffFunctions a.functions b.functions

/-- Modelled from the spec: the structural delta between two OtherModel
values. -/
def diffOther (a b : OtherModel) : List Change :=
  if a = b then []
  else [⟨["Entries"], some (serializeOther a), some (serializeOther b)⟩]

/-- The process-wide per-Global-type identifier: the address of the
per-instantiation `static char ID` of `TupleTreeGlobal<T>`, as a closed type
(the set of concrete Global types is fixed at build time). -/
inductive GlobalTypeID where
  | modelID
  | otherID
deriving DecidableEq, Repr

/-- `pipeline::Global` with its two concrete `TupleTreeGlobal` instantiations
as a closed tagged variant. -/
inductive GlobalObj where
  | ttModel (value : Model)
  | ttOther (value : OtherModel)
deriving DecidableEq, Repr

/-- `Global::getID()`: the stored per-type tag. -/
def GlobalObj.getID : GlobalObj → GlobalTypeID
  | .ttModel _ => .modelID
  | .ttOther _ => .otherID

/-- `TupleTreeGlobal<Model>::classof`: tag comparison against the Model
instantiation's ID. -/
def TupleTreeGlobalModel.classof (g : GlobalObj) : Bool := g.getID == .modelID

/-- `TupleTreeGlobal::clone`: a new Global holding `Value.clone()` — a deep
copy of the wrapped tree, which on values is the value itself. -/
def GlobalObj.clone : GlobalObj → GlobalObj
  | .ttModel v => .ttModel v
  | .ttOther v => .ttOther v

/-- `TupleTreeGlobal::clear`: `*Value = Object()`. -/
def GlobalObj.clear : GlobalObj → GlobalObj
  | .ttModel _ => .ttModel ⟨[]⟩
  | .ttOther _ => .ttOther ⟨[]⟩

/-- `TupleTreeGlobal::serialize`: `Value.serialize(OS)`, always successful. -/
def GlobalObj.serialize : GlobalObj → Node
  | .ttModel v => serializeModel v
  | .ttOther v => serializeOther v

/-- `TupleTreeGlobal::deserialize`: parse the buffer as the wrapped tree type
(virtual dispatch on the receiver); a parse failure becomes an error and the
held value is only replaced on success. -/
def GlobalObj.deserialize : GlobalObj → Node → Except String GlobalObj
  | .ttModel _, buf =>
    match deserializeModel buf with
    | none => .error "could not deserialize"
    | some v => .ok (.ttModel v)
  | .ttOther _, buf =>
    match deserializeOther buf with
    | none => .error "could not deserialize"
    | some v => .ok (.ttOther v)

/-- `pipeline::AnyDiff` as a closed variant: one arm per concrete Global
type. -/
inductive AnyDiffV where
  | model (d : List Change)
  | other (d : List Change)

/-- `TupleTreeGlobal::diff`: `llvm::cast<TupleTreeGlobal>(Other)` then
structural diff; the cast is a fatal assertion on a type-tag mismatch,
modelled as `none`. -/
def GlobalObj.diff : GlobalObj → GlobalObj → Option AnyDiffV
  | .ttModel a, .ttModel b => some (.model (diffModel a b))
  | .ttOther a, .ttOther b => some (.other (diffOther a b))
  | _, _ => none

/-- Is the diff free of changes? -/
def AnyDiffV.isEmpty : AnyDiffV → Bool
  | .model d => d.isEmpty
  | .other d => d.isEmpty

def deserializePath : List Node → Option (List String)
  | [] => some []
  | .str s :: rest => (deserializePath rest).map (s :: ·)
  | _ => none

/-- Modelled from the spec: parsing one diff entry of a serialized
`TupleTreeDiff`. -/
def deserializeChange : Node → Option Change
  | .node [("Path", .seq ps), ("Old", o), ("New", n)] =>
    (deserializePath ps).map fun path => ⟨path, some o, some n⟩
  | _ => none

def deserializeChanges : List Node → Option (List Change)
  | [] => some []
  | n :: rest =>
    match deserializeChange n, deserializeChanges rest with
    | some c, some cs => some (c :: cs)
    | _, _ => none

/-- Modelled from the spec: `::deserialize<TupleTreeDiff<T>>(Buffer)` — a
buffer parses as a diff only when it is a sequence of diff entries. -/
def deserializeDiff : Node → Option (List Change)
  | .seq xs => deserializeChanges xs
  | _ => none

/-- Modelled from the spec: `TupleTreeDiff<Model>::apply` — a change at
`Functions/<addr>/Name` renames the function at that address. -/
def applyChangeModel (c : Change) (m : Model) : Model :=
  match c.path, c.newVal with
  | ["Functions", addr, "Name"], some (.str newName) =>
    ⟨m.functions.map fun f =>
      if toString f.address = addr then { f with name := newName } else f⟩
  | _, _ => m

def applyChangesModel (cs : List Change) (m : Model) : Model :=
  cs.foldl (fun m c => applyChangeModel c m) m

/-- `TupleTreeGlobal::applyDiff(Buffer)`: deserialize the buffer as a diff of
the wrapped type; on failure return the error with the held value untouched,
on success apply the diff to the held value. -/
def GlobalObj.applyDiff (g : GlobalObj) (buf : Node) : Except String Unit × GlobalObj :=
  match g with
  | .ttModel v =>
    match deserializeDiff buf with
    | none => (.error "could not parse diff", g)
    | some d => (.ok (), .ttModel (applyChangesModel d v))
  | .ttOther v =>
    match deserializeDiff buf with
    | none => (.error "could not parse diff", g)
    | some d =>
      match d with
      | [⟨["Entries"], _, some nv⟩] =>
        match deserializeOther nv with
        | some o => (.ok (), .ttOther o)
        | none => (.ok (), .ttOther v)
      | _ => (.ok (), .ttOther v)

/-! ## GlobalsMap (value level) -/

/-- `pipeline::GlobalsMap`: name → owned Global. -/
structure GlobalsMap where
  entries : List (String × GlobalObj)
deriving DecidableEq, Repr

/-- `GlobalsMap::get<TupleTreeGlobal<Model>>`: unknown name and
`dyn_cast` failure are both reported as errors. -/
def GlobalsMap.getModel (m : GlobalsMap) (name : String) : Except String Model :=
  match lookupA m.entries name with
  | none => .error ("could not find " ++ name)
  | some g =>
    match g with
    | .ttModel v => .ok v
    | _ => .error ("requested to cast " ++ name ++ " to the wrong type")

/-- `GlobalsMap::diff(Other)`: for each entry, the same-named Global of
`Other` is looked up and dereferenced unguarded (`none` models the undefined
dereference), then diffed (`none` also models the fatal cast on a type
mismatch inside `Global::diff`). -/
def diffEntries (other : GlobalsMap) :
    List (String × GlobalObj) → Option (List (String × AnyDiffV))
  | [] => some []
  | (n, g) :: rest =>
    match lookupA other.entries n with
    | none => none
    | some og =>
      match g.diff og with
      | none => none
      | some d => (diffEntries other rest).map ((n, d) :: ·)

def GlobalsMap.diffM (m other : GlobalsMap) : Option (List (String × AnyDiffV)) :=
  diffEntries other m.entries

/-! ## Invalidation-event type tags (C7) -/

/-- The per-Global-type identifier carried by invalidation events: the address
of `InvalidationEvent<Derived>::ID<Derived>`, as a closed type. -/
inductive EventTypeID where
  | modelEventID
  | otherEventID
deriving DecidableEq, Repr

/-- The closed variant of `TupleTreeInvalidationEvent<T>` over the two
concrete Global types. -/
inductive EventV where
  | ttModelEvent (d : List Change)
  | ttOtherEvent (d : List Change)

/-- `InvalidationEventBase::getID()`. -/
def EventV.getID : EventV → EventTypeID
  | .ttModelEvent _ => .modelEventID
  | .ttOtherEvent _ => .otherEventID

/-- `TupleTreeInvalidationEvent<Model>::classof`. -/
def TupleTreeInvalidationEventModel.classof (e : EventV) : Bool :=
  e.getID == .modelEventID

/-- `TupleTreeInvalidationEvent<OtherModel>::classof`. -/
def TupleTreeInvalidationEventOther.classof (e : EventV) : Bool :=
  e.getID == .otherEventID

/-- `AnyDiffImpl<T>::getInvalidationEvent`: a new
`TupleTreeInvalidationEvent<T>` wrapping the diff. -/
def AnyDiffV.getInvalidationEvent : AnyDiffV → EventV
  | .model d => .ttModelEvent d
  | .other d => .ttOtherEvent d

/-! ## GlobalsMap copy semantics (C5)

`GlobalsMap` owns its Globals through `unique_ptr`s; to state the aliasing
property of the deep copy, the owned objects live in an explicit heap and the
map holds pointers (cell indices). -/

/-- The owning store: cell index = pointer. -/
structure Heap where
  cells : List GlobalObj

def Heap.read (h : Heap) (p : Nat) : Option GlobalObj := h.cells[p]?

def Heap.write (h : Heap) (p : Nat) (v : GlobalObj) : Heap := ⟨h.cells.set p v⟩

def Heap.alloc (h : Heap) (v : GlobalObj) : Heap × Nat :=
  (⟨h.cells ++ [v]⟩, h.cells.length)

/-- `GlobalsMap` at the ownership level: name → pointer to the owned Global. -/
structure GlobalsMapRef where
  entries : List (String × Nat)

/-- The loop shared by `GlobalsMap`'s copy constructor and copy assignment:
`for (const auto &Entry : Other.Map) Map.try_emplace(Entry.first(),
Entry.second->clone())` — each entry's Global is read through its pointer,
cloned into a fresh allocation, and bound to the same name. -/
def copyEntries : Heap → List (String × Nat) → Option (Heap × List (String × Nat))
  | h, [] => some (h, [])
  | h, (n, p) :: rest =>
    match h.read p with
    | none => none
    | some g =>
      let hp := h.alloc g.clone
      match copyEntries hp.1 rest with
      | none => none
      | some (h2, rest2) => some (h2, (n, hp.2) :: rest2)

/-- `GlobalsMap::GlobalsMap(const GlobalsMap &)` / `operator=`. -/
def GlobalsMapRef.copy (h : Heap) (m : GlobalsMapRef) :
    Option (Heap × GlobalsMapRef) :=
  (copyEntries h m.entries).map fun pr => (pr.1, ⟨pr.2⟩)

/-! ## On-disk persistence (C8, C9) -/

/-- A filesystem path, as its components. -/
abbrev FsPath := List String

/-- The filesystem: existing directories and files with their (abstract,
already-parsed) contents. -/
structure FS where
  dirs : List FsPath
  files : List (FsPath × Node)

/-- All nonempty prefixes of a path: what `create_directories` brings into
existence. -/
def prefixesOf (p : FsPath) : List FsPath :=
  (List.range p.length).map fun i => p.take (i + 1)

/-- `llvm::sys::fs::create_directories`. -/
def FS.createDirectories (fs : FS) (p : FsPath) : FS :=
  ⟨prefixesOf p ++ fs.dirs, fs.files⟩

/-- Store (create or overwrite) a file: `raw_fd_ostream` creation fails when
the parent directory does not exist. -/
def FS.writeFile (fs : FS) (p : FsPath) (content : Node) : Except String FS :=
  if p.dropLast ∈ fs.dirs ∨ p.dropLast = [] then
    .ok ⟨fs.dirs, updateA fs.files p content fun _ => content⟩
  else
    .error "could not write file"

/-- `Global::storeToDisk(Path)`: open the file for writing, then
`serialize(OS)` (src/unnamed/part_008). -/
def GlobalObj.storeToDisk (g : GlobalObj) (path : FsPath) (fs : FS) :
    Except String FS :=
  fs.writeFile path g.serialize

/-- `Global::loadFromDisk(Path)` (src/unnamed/part_008): a missing file means
`clear()` and success; an existing file is read and deserialized. -/
def GlobalObj.loadFromDisk (g : GlobalObj) (path : FsPath) (fs : FS) :
    Except String GlobalObj :=
  match lookupA fs.files path with
  | none => .ok g.clear
  | some content => g.deserialize content

/-- The loop body of `GlobalsMap::storeToDisk` (src/unnamed/part_007): for
each Global, `create_directories(Root/context)` then store the Global at
`Root/context/<GlobalName>`. -/
def storeEntries (root : FsPath) : FS → List (String × GlobalObj) → Except String FS
  | fs, [] => .ok fs
  | fs, (name, g) :: rest =>
    let fs1 := fs.createDirectories (root ++ ["context"])
    match g.storeToDisk (root ++ ["context", name]) fs1 with
    | .error e => .error e
    | .ok fs2 => storeEntries root fs2 rest

/-- `GlobalsMap::storeToDisk(Path)` (src/unnamed/part_007). -/
def GlobalsMap.storeToDisk (m : GlobalsMap) (root : FsPath) (fs : FS) :
    Except String FS :=
  storeEntries root fs m.entries

/-- The loop body of `GlobalsMap::loadFromDisk` (src/unnamed/part_007): each
Global is reloaded in place from `Root/context/<GlobalName>`. -/
def loadEntries (root : FsPath) (fs : FS) :
    List (String × GlobalObj) → Except String (List (String × GlobalObj))
  | [] => .ok []
  | (name, g) :: rest =>
    match g.loadFromDisk (root ++ ["context", name]) fs with
    | .error e => .error e
    | .ok g2 =>
      match loadEntries root fs rest with
      | .error e => .error e
      | .ok rest2 => .ok ((name, g2) :: rest2)

/-- `GlobalsMap::loadFromDisk(Path)` (src/unnamed/part_007). -/
def GlobalsMap.loadFromDisk (m : GlobalsMap) (root : FsPath) (fs : FS) :
    Except String GlobalsMap :=
  (loadEntries root fs m.entries).map GlobalsMap.mk

/-! ## Round-trip lemmas for the serialization model -/

theorem deserializeFunction_serializeFunction (f : ModelFunction) :
    deserializeFunction (serializeFunction f) = some f := by
  cases f
  rfl

theorem deserializeFunctions_round (l : List ModelFunction) :
    deserializeFunctions (l.map serializeFunction) = some l := by
  induction l with
  | nil => rfl
  | cons f fs ih =>
    simp [deserializeFunctions, deserializeFunction_serializeFunction, ih]

theorem deserializeModel_serializeModel (m : Model) :
    deserializeModel (serializeModel m) = some m := by
  cases m with
  | mk fns =>
    simp [serializeModel, deserializeModel, deserializeFunctions_round]

theorem deserializeOtherEntries_round (l : List String) :
    deserializeOtherEntries (l.map Node.str) = some l := by
  induction l with
  | nil => rfl
  | cons s ss ih => simp [deserializeOtherEntries, ih]

theorem deserializeOther_serializeOther (o : OtherModel) :
    deserializeOther (serializeOther o) = some o := by
  cases o with
  | mk es => simp [serializeOther, deserializeOther, deserializeOtherEntries_round]

/-- `deserialize(serialize(g))` restores the very value, for every concrete
Global type. -/
theorem globalObj_roundTrip (g : GlobalObj) :
    g.deserialize g.serialize = .ok g := by
  cases g with
  | ttModel v =>
    simp [GlobalObj.serialize, GlobalObj.deserialize, deserializeModel_serializeModel]
  | ttOther v =>
    simp [GlobalObj.serialize, GlobalObj.deserialize, deserializeOther_serializeOther]

theorem find?_function_self (l : List ModelFunction) (f : ModelFunction) (hf : f ∈ l)
    (hnodup : (l.map ModelFunction.address).Nodup) :
    (l.find? fun g => g.address == f.address) = some f := by
  induction l with
  | nil => cases hf
  | cons hd tl ih =>
    simp only [List.map_cons, List.nodup_cons] at hnodup
    rcases List.mem_cons.mp hf with heq | htl
    · subst heq
      rw [List.find?_cons_of_pos _ (by simp)]
    · have hne : hd.address ≠ f.address :=
        fun h => hnodup.1 (h ▸ List.mem_map_of_mem ModelFunction.address htl)
      rw [List.find?_cons_of_neg _ (by simp [hne])]
      exact ih htl hnodup.2

theorem diffModel_self (m : Model)
    (hnodup : (m.functions.map ModelFunction.address).Nodup) :
    diffModel m m = [] := by
  unfold diffModel diffFunctions
  rw [List.filterMap_eq_nil_iff.mpr, List.filterMap_eq_nil_iff.mpr, List.append_nil]
  · intro g hg
    rw [find?_function_self m.functions g hg hnodup]
  · intro f hf
    rw [find?_function_self m.functions f hf hnodup]
    simp

theorem diffOther_self (o : OtherModel) : diffOther o o = [] := by
  simp [diffOther]

/-- Keyed-collection well-formedness of the wrapped tree: the model's
functions are keyed by address. -/
def GlobalObj.wellFormed : GlobalObj → Bool
  | .ttModel v => decide (v.functions.map ModelFunction.address).Nodup
  | .ttOther _ => true

/-- C4: for every Global `g`, `deserialize(serialize(g))` succeeds and returns
a Global whose diff against `g` contains no changes; in particular for every
TupleTreeGlobal the wrapped tree serializes, deserializes back, and diffs
empty against the original. -/
theorem global_serialize_roundTrip (g : GlobalObj) (hwf : g.wellFormed = true) :
    g.deserialize g.serialize = .ok g ∧
    ∃ d, g.diff g = some d ∧ d.isEmpty = true := by
  refine ⟨globalObj_roundTrip g, ?_⟩
  cases g with
  | ttModel v =>
    refine ⟨.model (diffModel v v), rfl, ?_⟩
    have hnodup : (v.functions.map ModelFunction.address).Nodup :=
      of_decide_eq_true hwf
    rw [AnyDiffV.isEmpty, diffModel_self v hnodup]
    rfl
  | ttOther v =>
    exact ⟨.other (diffOther v v), rfl, by rw [AnyDiffV.isEmpty, diffOther_self]; rfl⟩

/-- Witness for C4 at a concrete model Global. -/
theorem global_serialize_roundTrip_witness :
    (GlobalObj.ttModel ⟨[⟨4096, "foo"⟩]⟩).deserialize
        (GlobalObj.ttModel ⟨[⟨4096, "foo"⟩]⟩).serialize
      = .ok (GlobalObj.ttModel ⟨[⟨4096, "foo"⟩]⟩) ∧
    ∃ d, (GlobalObj.ttModel ⟨[⟨4096, "foo"⟩]⟩).diff (GlobalObj.ttModel ⟨[⟨4096, "foo"⟩]⟩)
        = some d ∧ d.isEmpty = true :=
  global_serialize_roundTrip (GlobalObj.ttModel ⟨[⟨4096, "foo"⟩]⟩) (by decide)

/-- C6: requesting a Global at an unknown name or at the wrong concrete type
is reported as an error by `GlobalsMap::get`, and `TupleTreeGlobal::applyDiff`
on a buffer that does not parse as a diff of the wrapped type returns an error
and leaves the held value unchanged. -/
theorem global_type_mismatch_is_error (m : GlobalsMap) (name : String) :
    (lookupA m.entries name = none → ∃ e, m.getModel name = .error e) ∧
    (∀ v, lookupA m.entries name = some (.ttOther v) → ∃ e, m.getModel name = .error e) ∧
    (∀ (v : Model) (buf : Node), deserializeDiff buf = none →
      (GlobalObj.ttModel v).applyDiff buf = (.error "could not parse diff", .ttModel v)) := by
  refine ⟨fun h => ?_, fun v h => ?_, fun v buf h => ?_⟩
  · exact ⟨_, by unfold GlobalsMap.getModel; rw [h]⟩
  · exact ⟨_, by unfold GlobalsMap.getModel; rw [h]⟩
  · unfold GlobalObj.applyDiff
    rw [h]

/-- Witness for C6: a map holding a Model Global under `"model"` and an
OtherModel Global under `"other"`. -/
theorem global_type_mismatch_is_error_witness :
    (∃ e, GlobalsMap.getModel ⟨[("model", .ttModel ⟨[]⟩), ("other", .ttOther ⟨[]⟩)]⟩
        "missing" = .error e) ∧
    (∃ e, GlobalsMap.getModel ⟨[("model", .ttModel ⟨[]⟩), ("other", .ttOther ⟨[]⟩)]⟩
        "other" = .error e) ∧
    (GlobalObj.ttModel ⟨[]⟩).applyDiff (.nat 0)
      = (.error "could not parse diff", .ttModel ⟨[]⟩) :=
  ⟨(global_type_mismatch_is_error
      ⟨[("model", .ttModel ⟨[]⟩), ("other", .ttOther ⟨[]⟩)]⟩ "missing").1 rfl,
   (global_type_mismatch_is_error
      ⟨[("model", .ttModel ⟨[]⟩), ("other", .ttOther ⟨[]⟩)]⟩ "other").2.1 ⟨[]⟩ rfl,
   (global_type_mismatch_is_error
      ⟨[("model", .ttModel ⟨[]⟩), ("other", .ttOther ⟨[]⟩)]⟩ "other").2.2 ⟨[]⟩ (.nat 0) rfl⟩

/-- C7: `AnyDiff::getInvalidationEvent` on a diff of concrete type `T`
produces the `TupleTreeInvalidationEvent<T>` wrapping it; distinct concrete
types carry distinct identifiers; and each `classof` accepts exactly the
events of its own type, so dispatch on the event's tag is unambiguous. -/
theorem invalidation_event_type_tags :
    (∀ d, (AnyDiffV.model d).getInvalidationEvent = .ttModelEvent d) ∧
    (∀ d, (AnyDiffV.other d).getInvalidationEvent = .ttOtherEvent d) ∧
    EventTypeID.modelEventID ≠ EventTypeID.otherEventID ∧
    (∀ a b, (AnyDiffV.model a).getInvalidationEvent.getID
      ≠ (AnyDiffV.other b).getInvalidationEvent.getID) ∧
    (∀ e, TupleTreeInvalidationEventModel.classof e = true ↔ ∃ d, e = .ttModelEvent d) ∧
    (∀ e, TupleTreeInvalidationEventOther.classof e = true ↔ ∃ d, e = .ttOtherEvent d) := by
  refine ⟨fun d => rfl, fun d => rfl, by decide,
    fun a b => by simp [AnyDiffV.getInvalidationEvent, EventV.getID],
    fun e => ?_, fun e => ?_⟩
  · cases e with
    | ttModelEvent d => simp [TupleTreeInvalidationEventModel.classof, EventV.getID]
    | ttOtherEvent d => simp [TupleTreeInvalidationEventModel.classof, EventV.getID]
  · cases e with
    | ttModelEvent d => simp [TupleTreeInvalidationEventOther.classof, EventV.getID]
    | ttOtherEvent d => simp [TupleTreeInvalidationEventOther.classof, EventV.getID]

/-- C9: `Global::loadFromDisk` on a path with no file resets the Global via
`clear()` and succeeds; an error can only arise from an existing file whose
contents fail to deserialize. -/
theorem loadFromDisk_missing_file_clears (g : GlobalObj) (path : FsPath) (fs : FS) :
    (lookupA fs.files path = none → g.loadFromDisk path fs = .ok g.clear) ∧
    (∀ e, g.loadFromDisk path fs = .error e →
      ∃ content, lookupA fs.files path = some content ∧ g.deserialize content = .error e) := by
  constructor
  · intro h
    unfold GlobalObj.loadFromDisk
    rw [h]
  · intro e he
    unfold GlobalObj.loadFromDisk at he
    match hl : lookupA fs.files path with
    | none => rw [hl] at he; cases he
    | some c => rw [hl] at he; exact ⟨c, rfl, he⟩

/-- Witness for C9: a missing file clears; a file that fails to parse is the
only error source. -/
theorem loadFromDisk_missing_file_clears_witness :
    (GlobalObj.ttModel ⟨[⟨1, "x"⟩]⟩).loadFromDisk ["p"] ⟨[], []⟩
      = .ok (GlobalObj.ttModel ⟨[]⟩) ∧
    ∃ content, lookupA (FS.mk [] [(["f"], Node.nat 0)]).files ["f"] = some content ∧
      (GlobalObj.ttModel ⟨[]⟩).deserialize content = .error "could not deserialize" :=
  ⟨(loadFromDisk_missing_file_clears (GlobalObj.ttModel ⟨[⟨1, "x"⟩]⟩) ["p"] ⟨[], []⟩).1 rfl,
   (loadFromDisk_missing_file_clears (GlobalObj.ttModel ⟨[]⟩) ["f"]
      ⟨[], [(["f"], Node.nat 0)]⟩).2 "could not deserialize" rfl⟩

/-! ## Deep-copy semantics of GlobalsMap (C5) -/

theorem read_mono (l1 l2 : List GlobalObj) (p : Nat) (hp : p < l1.length)
    (hpre : l1 <+: l2) : l2[p]? = l1[p]? := by
  obtain ⟨t, rfl⟩ := hpre
  exact List.getElem?_append_left hp

theorem copyEntries_spec (l : List (String × Nat)) :
    ∀ h : Heap, (∀ e ∈ l, e.2 < h.cells.length) →
      ∃ h2 es, copyEntries h l = some (h2, es) ∧
        h.cells <+: h2.cells ∧
        es.map Prod.fst = l.map Prod.fst ∧
        (∀ e ∈ es, h.cells.length ≤ e.2 ∧ e.2 < h2.cells.length) ∧
        (∀ pr ∈ es.zip l, h2.read pr.1.2 = (h.read pr.2.2).map GlobalObj.clone) := by
  induction l with
  | nil =>
    intro h _
    exact ⟨h, [], rfl, List.prefix_refl _, rfl, by simp, by simp⟩
  | cons hd tl ih =>
    intro h hval
    obtain ⟨n, p⟩ := hd
    have hp : p < h.cells.length := hval (n, p) (List.mem_cons_self _ _)
    have hg : h.read p = some h.cells[p] := List.getElem?_eq_getElem hp
    have hval1 : ∀ e ∈ tl, e.2 < (Heap.mk (h.cells ++ [(h.cells[p]).clone])).cells.length := by
      intro e he
      have := hval e (List.mem_cons_of_mem _ he)
      simp only [List.length_append, List.length_cons, List.length_nil]
      omega
    obtain ⟨h2, es, hcopy, hpre, hnames, hrange, hvals⟩ :=
      ih ⟨h.cells ++ [(h.cells[p]).clone]⟩ hval1
    refine ⟨h2, (n, h.cells.length) :: es, ?_, ?_, ?_, ?_, ?_⟩
    · simp only [copyEntries, hg, Heap.alloc, hcopy]
    · exact List.IsPrefix.trans ⟨[(h.cells[p]).clone], rfl⟩ hpre
    · simp [hnames]
    · intro e he
      rcases List.mem_cons.mp he with heq | htl
      · subst heq
        refine ⟨Nat.le_refl _, ?_⟩
        have h1 : h.cells.length < (h.cells ++ [(h.cells[p]).clone]).length := by
          simp
        exact Nat.lt_of_lt_of_le h1 hpre.length_le
      · have := hrange e htl
        simp only [List.length_append, List.length_cons, List.length_nil] at this
        exact ⟨by omega, this.2⟩
    · intro pr hpr
      rcases List.mem_cons.mp hpr with heq | htl
      · subst heq
        have hread2 : h2.read h.cells.length = some (h.cells[p]).clone := by
          unfold Heap.read
          rw [read_mono _ h2.cells h.cells.length (by simp) hpre]
          exact List.getElem?_concat_length _ _
        rw [hread2, hg]
        rfl
      · have hmem := (List.of_mem_zip htl).2
        have hlt : pr.2.2 < h.cells.length := hval pr.2 (List.mem_cons_of_mem _ hmem)
        rw [hvals pr htl]
        unfold Heap.read
        rw [List.getElem?_append_left hlt]

/-- C5: copy-constructing (or copy-assigning, which runs the same per-entry
loop) a GlobalsMap deep-clones every Global via `Global::clone`: the copy
binds the same names, each copied cell holds the clone of the original value,
the originals are untouched by the copy, and mutating any Global reachable
from either map leaves every Global of the other map unchanged. -/
theorem globalsMap_copy_deep (h : Heap) (m : GlobalsMapRef)
    (hvalid : ∀ e ∈ m.entries, e.2 < h.cells.length) :
    ∃ h2 c, GlobalsMapRef.copy h m = some (h2, c) ∧
      c.entries.map Prod.fst = m.entries.map Prod.fst ∧
      (∀ pr ∈ c.entries.zip m.entries,
        h2.read pr.1.2 = (h.read pr.2.2).map GlobalObj.clone) ∧
      (∀ e ∈ m.entries, h2.read e.2 = h.read e.2) ∧
      (∀ e2 ∈ c.entries, ∀ v : GlobalObj, ∀ e ∈ m.entries,
        (h2.write e2.2 v).read e.2 = h2.read e.2) ∧
      (∀ e ∈ m.entries, ∀ v : GlobalObj, ∀ e2 ∈ c.entries,
        (h2.write e.2 v).read e2.2 = h2.read e2.2) := by
  obtain ⟨h2, es, hcopy, hpre, hnames, hrange, hvals⟩ :=
    copyEntries_spec m.entries h hvalid
  refine ⟨h2, ⟨es⟩, ?_, hnames, hvals, ?_, ?_, ?_⟩
  · unfold GlobalsMapRef.copy
    rw [hcopy]
    rfl
  · intro e he
    unfold Heap.read
    exact read_mono h.cells h2.cells e.2 (hvalid e he) hpre
  · intro e2 he2 v e he
    have hne : e2.2 ≠ e.2 := by
      have h1 := (hrange e2 he2).1
      have h2l := hvalid e he
      omega
    unfold Heap.write Heap.read
    exact List.getElem?_set_ne hne
  · intro e he v e2 he2
    have hne : e.2 ≠ e2.2 := by
      have h1 := (hrange e2 he2).1
      have h2l := hvalid e he
      omega
    unfold Heap.write Heap.read
    exact List.getElem?_set_ne hne

/-- Witness for C5 at a one-entry map. -/
theorem globalsMap_copy_deep_witness :
    ∃ h2 c, GlobalsMapRef.copy ⟨[.ttModel ⟨[]⟩]⟩ ⟨[("model", 0)]⟩ = some (h2, c) ∧
      c.entries.map Prod.fst = [("model", 0)].map Prod.fst ∧
      (∀ pr ∈ c.entries.zip [("model", 0)],
        h2.read pr.1.2 = ((Heap.mk [.ttModel ⟨[]⟩]).read pr.2.2).map GlobalObj.clone) ∧
      (∀ e ∈ [("model", 0)], h2.read e.2 = (Heap.mk [.ttModel ⟨[]⟩]).read e.2) ∧
      (∀ e2 ∈ c.entries, ∀ v : GlobalObj, ∀ e ∈ [("model", 0)],
        (h2.write e2.2 v).read e.2 = h2.read e.2) ∧
      (∀ e ∈ [("model", 0)], ∀ v : GlobalObj, ∀ e2 ∈ c.entries,
        (h2.write e.2 v).read e2.2 = h2.read e2.2) :=
  globalsMap_copy_deep ⟨[.ttModel ⟨[]⟩]⟩ ⟨[("model", 0)]⟩ (by decide)

/-! ## Persistence round trip (C8) -/

theorem mem_prefixesOf_self (p : FsPath) (hne : p ≠ []) : p ∈ prefixesOf p := by
  unfold prefixesOf
  have hlen : 0 < p.length := List.length_pos.mpr hne
  refine List.mem_map.mpr ⟨p.length - 1, List.mem_range.mpr (by omega), ?_⟩
  rw [show p.length - 1 + 1 = p.length by omega]
  exact List.take_length p

theorem ctxPath_concat (root : FsPath) (name : String) :
    root ++ ["context", name] = (root ++ ["context"]) ++ [name] := by
  simp

theorem ctxPath_inj (root : FsPath) {a b : String}
    (h : root ++ ["context", a] = root ++ ["context", b]) : a = b := by
  have h2 := List.append_cancel_left h
  simpa using h2

theorem storeEntries_spec (root : FsPath) (l : List (String × GlobalObj))
    (hnodup : (l.map Prod.fst).Nodup) :
    ∀ fs : FS, ∃ fs2, storeEntries root fs l = .ok fs2 ∧
      (∀ q ∈ fs.dirs, q ∈ fs2.dirs) ∧
      (l ≠ [] → (root ++ ["context"]) ∈ fs2.dirs) ∧
      (∀ e ∈ l, lookupA fs2.files (root ++ ["context", e.1]) = some e.2.serialize) ∧
      (∀ p : FsPath, (∀ e ∈ l, p ≠ root ++ ["context", e.1]) →
        lookupA fs2.files p = lookupA fs.files p) := by
  induction l with
  | nil =>
    intro fs
    exact ⟨fs, rfl, fun q hq => hq, fun h => absurd rfl h, by simp, fun p _ => rfl⟩
  | cons hd tl ih =>
    intro fs
    obtain ⟨name, g⟩ := hd
    simp only [List.map_cons, List.nodup_cons] at hnodup
    have hctxne : root ++ ["context"] ≠ [] := by simp
    have hdrop : (root ++ ["context", name]).dropLast = root ++ ["context"] := by
      rw [ctxPath_concat]
      exact List.dropLast_concat
    have hmemctx : root ++ ["context"] ∈ (fs.createDirectories (root ++ ["context"])).dirs :=
      List.mem_append.mpr (Or.inl (mem_prefixesOf_self _ hctxne))
    have hstore : g.storeToDisk (root ++ ["context", name])
        (fs.createDirectories (root ++ ["context"]))
        = .ok ⟨(fs.createDirectories (root ++ ["context"])).dirs,
               updateA (fs.createDirectories (root ++ ["context"])).files
                 (root ++ ["context", name]) g.serialize (fun _ => g.serialize)⟩ := by
      unfold GlobalObj.storeToDisk FS.writeFile
      rw [hdrop, if_pos (Or.inl hmemctx)]
    obtain ⟨fs2, hgo, hdirs, hctxmem, hfiles, hpres⟩ :=
      ih hnodup.2
        ⟨(fs.createDirectories (root ++ ["context"])).dirs,
         updateA (fs.createDirectories (root ++ ["context"])).files
           (root ++ ["context", name]) g.serialize (fun _ => g.serialize)⟩
    refine ⟨fs2, ?_, ?_, fun _ => ?_, ?_, ?_⟩
    · simp only [storeEntries]
      rw [hstore]
      exact hgo
    · intro q hq
      exact hdirs q (List.mem_append.mpr (Or.inr hq))
    · exact hdirs _ hmemctx
    · intro e he
      rcases List.mem_cons.mp he with heq | htl
      · subst heq
        rw [hpres (root ++ ["context", name])
            (fun e' he' h => hnodup.1 (ctxPath_inj root h ▸ List.mem_map_of_mem Prod.fst he'))]
        rw [lookupA_updateA_self]
      · exact hfiles e htl
    · intro p hp
      rw [hpres p (fun e he => hp e (List.mem_cons_of_mem _ he))]
      exact lookupA_updateA_ne _ _ _ _ _ (hp (name, g) (List.mem_cons_self _ _))

theorem loadEntries_id (root : FsPath) (fs : FS) (l : List (String × GlobalObj))
    (hfiles : ∀ e ∈ l, lookupA fs.files (root ++ ["context", e.1]) = some e.2.serialize) :
    loadEntries root fs l = .ok l := by
  induction l with
  | nil => rfl
  | cons hd tl ih =>
    obtain ⟨name, g⟩ := hd
    have h1 : g.loadFromDisk (root ++ ["context", name]) fs = .ok g := by
      unfold GlobalObj.loadFromDisk
      rw [hfiles (name, g) (List.mem_cons_self _ _)]
      exact globalObj_roundTrip g
    simp only [loadEntries]
    rw [h1, ih (fun e he => hfiles e (List.mem_cons_of_mem _ he))]

/-- C8: `GlobalsMap::storeToDisk(path)` writes, for every contained Global,
exactly one file at `path/context/<GlobalName>` holding that Global's
serialized form (creating the `context` directory when missing, and touching
no other file), and `GlobalsMap::loadFromDisk(path)` reads every Global back
from `path/context/<GlobalName>`, so storing and reloading restores every
Global to an equal value. -/
theorem globalsMap_store_load_roundTrip (m : GlobalsMap) (root : FsPath) (fs : FS)
    (hnodup : (m.entries.map Prod.fst).Nodup) :
    ∃ fs2, m.storeToDisk root fs = .ok fs2 ∧
      (∀ e ∈ m.entries,
        lookupA fs2.files (root ++ ["context", e.1]) = some e.2.serialize) ∧
      (∀ p : FsPath, (∀ e ∈ m.entries, p ≠ root ++ ["context", e.1]) →
        lookupA fs2.files p = lookupA fs.files p) ∧
      (m.entries ≠ [] → (root ++ ["context"]) ∈ fs2.dirs) ∧
      m.loadFromDisk root fs2 = .ok m := by
  obtain ⟨fs2, hgo, _, hctx, hfiles, hpres⟩ := storeEntries_spec root m.entries hnodup fs
  refine ⟨fs2, hgo, hfiles, hpres, hctx, ?_⟩
  unfold GlobalsMap.loadFromDisk
  rw [loadEntries_id root fs2 m.entries hfiles]
  rfl

/-- Witness for C8 at a one-Global map stored under `workdir`. -/
theorem globalsMap_store_load_roundTrip_witness :
    ∃ fs2,
      GlobalsMap.storeToDisk ⟨[("model", .ttModel ⟨[⟨4096, "foo"⟩]⟩)]⟩ ["workdir"] ⟨[], []⟩
        = .ok fs2 ∧
      (∀ e ∈ [("model", GlobalObj.ttModel ⟨[⟨4096, "foo"⟩]⟩)],
        lookupA fs2.files (["workdir"] ++ ["context", e.1]) = some e.2.serialize) ∧
      (∀ p : FsPath,
        (∀ e ∈ [("model", GlobalObj.ttModel ⟨[⟨4096, "foo"⟩]⟩)],
          p ≠ ["workdir"] ++ ["context", e.1]) →
        lookupA fs2.files p = lookupA (FS.mk [] []).files p) ∧
      ([("model", GlobalObj.ttModel ⟨[⟨4096, "foo"⟩]⟩)] ≠ [] →
        (["workdir"] ++ ["context"]) ∈ fs2.dirs) ∧
      GlobalsMap.loadFromDisk ⟨[("model", .ttModel ⟨[⟨4096, "foo"⟩]⟩)]⟩ ["workdir"] fs2
        = .ok ⟨[("model", .ttModel ⟨[⟨4096, "foo"⟩]⟩)]⟩ :=
  globalsMap_store_load_roundTrip ⟨[("model", .ttModel ⟨[⟨4096, "foo"⟩]⟩)]⟩ ["workdir"]
    ⟨[], []⟩ (by decide)

/-! ## GlobalsMap::diff totality under its precondition (C10) -/

theorem diff_some_of_sameID (g g2 : GlobalObj) (h : g.getID = g2.getID) :
    ∃ d, g.diff g2 = some d := by
  cases g <;> cases g2
  · exact ⟨_, rfl⟩
  · simp [GlobalObj.getID] at h
  · simp [GlobalObj.getID] at h
  · exact ⟨_, rfl⟩

theorem diffEntries_spec (other : GlobalsMap) (l : List (String × GlobalObj))
    (hnames : ∀ e ∈ l, ∃ g2, lookupA other.entries e.1 = some g2)
    (htypes : ∀ e ∈ l, ∀ g2, lookupA other.entries e.1 = some g2 → e.2.getID = g2.getID) :
    ∃ res, diffEntries other l = some res ∧
      res.map Prod.fst = l.map Prod.fst ∧
      (∀ pr ∈ res.zip l, ∃ g2, lookupA other.entries pr.2.1 = some g2 ∧
        pr.2.2.diff g2 = some pr.1.2) := by
  induction l with
  | nil => exact ⟨[], rfl, rfl, by simp⟩
  | cons hd tl ih =>
    obtain ⟨n, g⟩ := hd
    obtain ⟨g2, hg2⟩ := hnames (n, g) (List.mem_cons_self _ _)
    obtain ⟨d, hd2⟩ := diff_some_of_sameID g g2 (htypes (n, g) (List.mem_cons_self _ _) g2 hg2)
    obtain ⟨res, hres, hnames2, hvals⟩ :=
      ih (fun e he => hnames e (List.mem_cons_of_mem _ he))
        (fun e he => htypes e (List.mem_cons_of_mem _ he))
    refine ⟨(n, d) :: res, ?_, by simp [hnames2], ?_⟩
    · simp [diffEntries, hg2, hd2, hres]
    · intro pr hpr
      rcases List.mem_cons.mp hpr with heq | htl
      · subst heq
        exact ⟨g2, hg2, hd2⟩
      · exact hvals pr htl

/-- C10: `GlobalsMap::diff(other)` requires every name of this map to be
present in `other` (the lookup is dereferenced unguarded); under that
precondition (and the same-type invariant of snapshot copies, on which the
inner `Global::diff` cast relies) it returns exactly one entry per name of
this map, each being `Global::diff` of this map's Global against `other`'s
same-named Global, and the unguarded-lookup branch is never taken. -/
theorem globalsMap_diff_one_entry_per_name (m other : GlobalsMap)
    (hnames : ∀ e ∈ m.entries, ∃ g2, lookupA other.entries e.1 = some g2)
    (htypes : ∀ e ∈ m.entries, ∀ g2,
      lookupA other.entries e.1 = some g2 → e.2.getID = g2.getID) :
    ∃ res, m.diffM other = some res ∧
      res.map Prod.fst = m.entries.map Prod.fst ∧
      (∀ pr ∈ res.zip m.entries, ∃ g2, lookupA other.entries pr.2.1 = some g2 ∧
        pr.2.2.diff g2 = some pr.1.2) :=
  diffEntries_spec other m.entries hnames htypes

/-- Witness for C10: diffing a one-entry map against itself. -/
theorem globalsMap_diff_one_entry_per_name_witness :
    ∃ res,
      GlobalsMap.diffM ⟨[("model", .ttModel ⟨[]⟩)]⟩ ⟨[("model", .ttModel ⟨[]⟩)]⟩
        = some res ∧
      res.map Prod.fst = [("model", GlobalObj.ttModel ⟨[]⟩)].map Prod.fst ∧
      (∀ pr ∈ res.zip [("model", GlobalObj.ttModel ⟨[]⟩)],
        ∃ g2, lookupA (GlobalsMap.mk [("model", .ttModel ⟨[]⟩)]).entries pr.2.1 = some g2 ∧
          pr.2.2.diff g2 = some pr.1.2) :=
  globalsMap_diff_one_entry_per_name ⟨[("model", .ttModel ⟨[]⟩)]⟩
    ⟨[("model", .ttModel ⟨[]⟩)]⟩
    (by
      intro e he
      rw [List.mem_singleton] at he
      subst he
      exact ⟨.ttModel ⟨[]⟩, rfl⟩)
    (by
      intro e he g2 hg2
      rw [List.mem_singleton] at he
      subst he
      simp [lookupA] at hg2
      subst hg2
      rfl)

end Pipeline
